import Mathlib

/-!
Verification of the log-supervision / log-compression core of the
GurobiLab desktop application (`src-tauri/src/lib.rs`).

Text is modelled as `List Char` (one entry per Unicode scalar value,
matching Rust's `char`).  Rust `String::len` and byte-indexed slicing are
modelled through an explicit UTF-8 byte-length function so that byte-level
behaviour (including the possibility of slicing at a non-character
boundary, which panics in Rust) is captured faithfully; a model function
returns `Option` where the Rust code can panic.  The external JSON parser
(`serde_json::from_str`) is an external collaborator and is passed as an
explicit function parameter; everything else is translated directly from
the source.
-/

set_option maxHeartbeats 1000000

namespace GurobiLab

/-- Model of Rust `str::starts_with` on character lists. -/
def isPrefixOfB : List Char → List Char → Bool
  | [], _ => true
  | _ :: _, [] => false
  | a :: as, b :: bs => a == b && isPrefixOfB as bs

/-- Model of Rust `str::contains` with a substring pattern: `containsB hay needle`
is `true` iff `needle` occurs contiguously inside `hay`. -/
def containsB : List Char → List Char → Bool
  | [], needle => isPrefixOfB needle []
  | c :: t, needle => isPrefixOfB needle (c :: t) || containsB t needle

/-- Split on a single separator character (every occurrence separates; a
trailing separator yields a trailing empty piece, as in Rust `str::split`). -/
def splitOnChar (sep : Char) : List Char → List (List Char)
  | [] => [[]]
  | c :: rest =>
    if c = sep then
      [] :: splitOnChar sep rest
    else
      match splitOnChar sep rest with
      | [] => [[c]]
      | p :: ps => (c :: p) :: ps

/-- Model of Rust `str::split` with a (non-empty) substring pattern:
repeatedly cut at the leftmost occurrence of `sep`. -/
def splitOnSub (sep : List Char) : List Char → List (List Char)
  | [] => [[]]
  | c :: rest =>
    if isPrefixOfB sep (c :: rest) then
      [] :: splitOnSub sep (rest.drop (sep.length - 1))
    else
      match splitOnSub sep rest with
      | [] => [[c]]
      | p :: ps => (c :: p) :: ps
termination_by l => l.length
decreasing_by
  all_goals simp [List.length_drop]
  omega

/-- Strip one trailing carriage return, as Rust's line iterator does for
`\r\n` endings. -/
def stripTrailingCR (l : List Char) : List Char :=
  if l.getLast? = some '\r' then l.dropLast else l

/-- Model of Rust `str::lines`: split at `'\n'`, drop the final empty piece
produced by a trailing newline (or by the empty string), and strip one
trailing `'\r'` from each line. -/
def rustLines (l : List Char) : List (List Char) :=
  let ps := splitOnChar '\n' l
  (if ps.getLast? = some [] then ps.dropLast else ps).map stripTrailingCR

/-- Model of `Vec::join("\n")`. -/
def joinNL : List (List Char) → List Char
  | [] => []
  | [l] => l
  | l :: rest => l ++ '\n' :: joinNL rest

/-- Model of Rust `str::trim` (whitespace removed from both ends). -/
def rustTrim (l : List Char) : List Char :=
  ((l.dropWhile Char.isWhitespace).reverse.dropWhile Char.isWhitespace).reverse

/-- Model of `Regex::new(r" +").replace_all(log, " ")`: every maximal run of
two or more spaces collapses to a single space. -/
def collapseSpaces : List Char → List Char
  | [] => []
  | [c] => [c]
  | c₁ :: c₂ :: rest =>
    if c₁ = ' ' ∧ c₂ = ' ' then collapseSpaces (c₂ :: rest)
    else c₁ :: collapseSpaces (c₂ :: rest)

/-- Decimal digits of a natural number (fuel-based so that it is structural
and kernel-reducible). -/
def natCharsAux : Nat → Nat → List Char
  | 0, _ => []
  | fuel + 1, n =>
    if n < 10 then [Char.ofNat (48 + n)]
    else natCharsAux fuel (n / 10) ++ [Char.ofNat (48 + n % 10)]

/-- Decimal representation of a natural number, as Rust `Display` prints it. -/
def natChars (n : Nat) : List Char := natCharsAux (n + 1) n

/-- Decimal representation of an integer, as Rust `Display` prints an `i32`. -/
def intChars (n : Int) : List Char :=
  if n < 0 then '-' :: natChars n.natAbs else natChars n.natAbs

/-- Number of bytes of the UTF-8 encoding of one character. -/
def charBytes (c : Char) : Nat :=
  if c.val < 0x80 then 1
  else if c.val < 0x800 then 2
  else if c.val < 0x10000 then 3
  else 4

/-- Byte length of the UTF-8 encoding of a text, i.e. Rust `String::len`. -/
def utf8Len (l : List Char) : Nat := (l.map charBytes).sum

/-- Drop exactly `i` bytes from the front of a text.  Returns `none` when the
byte index `i` does not fall on a character boundary (the situation in which
Rust's byte-indexed slicing `&s[i..]` panics). -/
def byteDropFront : Nat → List Char → Option (List Char)
  | 0, l => some l
  | _ + 1, [] => none
  | i + 1, c :: cs =>
    if charBytes c ≤ i + 1 then byteDropFront (i + 1 - charBytes c) cs else none

/-- Model of `serde_json::Value`.  Numbers are modelled as integers: the
pruning code treats every number as an untouched scalar, so the numeric
representation is never inspected. -/
inductive Value where
  | null
  | bool (b : Bool)
  | num (n : Int)
  | str (s : List Char)
  | arr (elems : List Value)
  | obj (fields : List (List Char × Value))

/-- The synthetic element pushed by `prune_json_recursively` for a truncated
array: `format!("... (truncated {} items) ...", removed)`. -/
def truncMsg (removed : Nat) : List Char :=
  "... (truncated ".toList ++ natChars removed ++ " items) ...".toList

mutual

/-- Model of `prune_json_recursively` (MAX_ITEMS = 3): an array with more
than 3 elements is truncated to its first 3 elements plus one marker string
recording how many elements were removed, and then every remaining element
is recursed into (recursing into the just-pushed marker string is a no-op,
so the model applies the recursion to the three retained elements directly);
object values are recursed into; scalars are untouched. -/
def prune_json_recursively : Value → Value
  | .arr (a :: b :: c :: _ :: rest) =>
    .arr [prune_json_recursively a, prune_json_recursively b,
          prune_json_recursively c, .str (truncMsg (rest.length + 1))]
  | .arr l => .arr (pruneList l)
  | .obj m => .obj (pruneFields m)
  | v => v

/-- Recursion of `prune_json_recursively` over the elements of an array. -/
def pruneList : List Value → List Value
  | [] => []
  | v :: vs => prune_json_recursively v :: pruneList vs

/-- Recursion of `prune_json_recursively` over the values of an object. -/
def pruneFields : List (List Char × Value) → List (List Char × Value)
  | [] => []
  | (k, v) :: r => (k, prune_json_recursively v) :: pruneFields r

end

/-- Escape of one character inside a JSON string, as `serde_json`'s compact
serializer emits it. -/
def escapeChar (c : Char) : List Char :=
  if c = '"' then ['\\', '"']
  else if c = '\\' then ['\\', '\\']
  else if c = '\n' then ['\\', 'n']
  else if c = '\r' then ['\\', 'r']
  else if c = '\t' then ['\\', 't']
  else if c.val < 0x20 then
    '\\' :: 'u' :: '0' :: '0' ::
      [Char.ofNat (if c.val.toNat / 16 < 10 then 48 + c.val.toNat / 16 else 87 + c.val.toNat / 16),
       Char.ofNat (if c.val.toNat % 16 < 10 then 48 + c.val.toNat % 16 else 87 + c.val.toNat % 16)]
  else [c]

/-- JSON string literal serialization. -/
def escapeString (s : List Char) : List Char :=
  '"' :: (s.map escapeChar).flatten ++ ['"']

mutual

/-- Model of `serde_json::Value::to_string` (compact serialization, no
whitespace). -/
def jsonToString : Value → List Char
  | .null => "null".toList
  | .bool true => "true".toList
  | .bool false => "false".toList
  | .num n => intChars n
  | .str s => escapeString s
  | .arr l => '[' :: jsonToStringList l ++ [']']
  | .obj m => '\x7b' :: jsonToStringFields m ++ ['\x7d']

/-- Comma-separated serialization of array elements. -/
def jsonToStringList : List Value → List Char
  | [] => []
  | [v] => jsonToString v
  | v :: rest => jsonToString v ++ ',' :: jsonToStringList rest

/-- Comma-separated serialization of object fields. -/
def jsonToStringFields : List (List Char × Value) → List Char
  | [] => []
  | [(k, v)] => escapeString k ++ ':' :: jsonToString v
  | (k, v) :: rest => escapeString k ++ ':' :: jsonToString v ++ ',' :: jsonToStringFields rest

end

mutual

/-- All object keys occurring anywhere in a JSON tree. -/
def collectKeys : Value → List (List Char)
  | .arr l => collectKeysList l
  | .obj m => collectKeysFields m
  | _ => []

/-- Keys occurring in a list of JSON values. -/
def collectKeysList : List Value → List (List Char)
  | [] => []
  | v :: vs => collectKeys v ++ collectKeysList vs

/-- Keys occurring in the fields of a JSON object. -/
def collectKeysFields : List (List Char × Value) → List (List Char)
  | [] => []
  | (k, v) :: r => k :: (collectKeys v ++ collectKeysFields r)

end

mutual

/-- `true` iff no array anywhere in the tree has more than 3 elements
(the code's MAX_ITEMS), i.e. iff pruning has nothing to truncate. -/
def noLongArrays : Value → Bool
  | .arr l => !(decide (3 < l.length)) && noLongList l
  | .obj m => noLongFields m
  | _ => true

/-- `noLongArrays` over the elements of an array. -/
def noLongList : List Value → Bool
  | [] => true
  | v :: vs => noLongArrays v && noLongList vs

/-- `noLongArrays` over the fields of an object. -/
def noLongFields : List (List Char × Value) → Bool
  | [] => true
  | (_, v) :: r => noLongArrays v && noLongFields r

end

/-- The filter predicate of `clean_gurobi_log`: a line is kept iff it
contains none of the six vendor banner substrings. -/
def keepDisplayLine (line : List Char) : Bool :=
  !containsB line "Set parameter".toList &&
  !containsB line "Academic license".toList &&
  !containsB line "Gurobi Optimizer version".toList &&
  !containsB line "CPU model".toList &&
  !containsB line "Thread count".toList &&
  !containsB line "Model fingerprint".toList

/-- The kept lines of the display sanitizer, before joining. -/
def displayLines (raw_log : List Char) : List (List Char) :=
  (rustLines raw_log).filter keepDisplayLine

/-- Model of `clean_gurobi_log`: drop every line containing one of the
banner substrings, join the remaining lines with `'\n'`. -/
def clean_gurobi_log (raw_log : List Char) : List Char :=
  joinNL (displayLines raw_log)

/-- One step of the line-sampling filter inside `compress_log_for_ai`:
given the running numeric-line count and a line, returns the updated count
and whether the line is kept.  Blank (all-whitespace) lines are dropped; a
line whose trimmed first character is an ASCII digit increments the count
and is kept iff the new count is `< 15` or a multiple of `15`; every other
line is kept without touching the count. -/
def sampleStep (numeric_row_count : Nat) (line : List Char) : Nat × Bool :=
  let trimmed := rustTrim line
  match trimmed with
  | [] => (numeric_row_count, false)
  | first_char :: _ =>
    if first_char.isDigit then
      let n := numeric_row_count + 1
      (n, decide (n < 15) || decide (n % 15 = 0))
    else
      (numeric_row_count, true)

/-- The sampling filter threaded over a list of lines, starting from a
given counter value. -/
def sampleLinesAux (numeric_row_count : Nat) : List (List Char) → List (List Char)
  | [] => []
  | line :: rest =>
    let (n, keep) := sampleStep numeric_row_count line
    if keep then line :: sampleLinesAux n rest else sampleLinesAux n rest

/-- The line-sampling pass of `compress_log_for_ai` (counter starts at 0). -/
def sampleLines (lines : List (List Char)) : List (List Char) :=
  sampleLinesAux 0 lines

/-- The `---JSON_START---` delimiter. -/
def jsonStartMarker : List Char := "---JSON_START---".toList

/-- The `---JSON_END---` delimiter. -/
def jsonEndMarker : List Char := "---JSON_END---".toList

/-- Model of `compress_log_for_ai`.  `parse` models the external
`serde_json::from_str` (returning `none` on parse failure).  The input is
split on the start marker; the part before it is the log body, the part
between the markers is the JSON fragment (pruned and re-serialized when it
parses, carried verbatim otherwise).  The log body then has space runs
collapsed and lines sampled, and a non-empty JSON part is appended under a
`[JSON_DATA]:` tag. -/
def compress_log_for_ai (parse : List Char → Option Value) (full_log : List Char) : List Char :=
  let parts := splitOnSub jsonStartMarker full_log
  let log_part :=
    match parts with
    | [] => []
    | p :: _ => p
  let json_part :=
    match parts with
    | _ :: p1 :: _ =>
      let raw_json :=
        match splitOnSub jsonEndMarker p1 with
        | [] => "\x7b\x7d".toList
        | r :: _ => r
      match parse raw_json with
      | some parsed => jsonToString (prune_json_recursively parsed)
      | none => raw_json
    | _ => []
  let log_part := collapseSpaces log_part
  let log_part := joinNL (sampleLines (rustLines log_part))
  if json_part = [] then log_part
  else log_part ++ '\n' :: "[JSON_DATA]:".toList ++ json_part

/-- The elision marker prefixed by `build_prompt_string` when the
compressed log exceeds 15000 bytes: `"... (snip) ...\n"`. -/
def elisionMarker : List Char := "... (snip) ...\n".toList

/-- The length-limiting step of `build_prompt_string`: when the compressed
log exceeds 15000 bytes, keep only its last 15000 bytes and prefix the
elision marker.  The Rust code slices at byte index `len - 15000`; when
that index is not a character boundary the slice panics, modelled by
`none`. -/
def final_log_of (parse : List Char → Option Value) (log : List Char) : Option (List Char) :=
  if 15000 < utf8Len (compress_log_for_ai parse log) then
    (byteDropFront (utf8Len (compress_log_for_ai parse log) - 15000)
      (compress_log_for_ai parse log)).map (fun tail => elisionMarker ++ tail)
  else
    some (compress_log_for_ai parse log)

/-- The built-in default system instruction of `build_prompt_string`. -/
def defaultSystemInstruction : List Char :=
  "あなたはデータサイエンティストです。以下の最適化計算ログを解析し、Markdown形式のレポートを作成してください。\n# 制約\n- 挨拶や前置きは不可。即座に見出し(#)から開始すること。\n- ログの引用は不可。".toList

/-- The fixed opening sentence of the user-focus text. -/
def defaultFocus : List Char :=
  "特に、結果サマリと計算プロセスの健全性について記述すること。".toList

/-- Model of `build_prompt_string`: compress, tail-truncate to the byte
budget, pick the system instruction (default when the configured one is
blank), build the focus text, and join instruction, focus and log under the
`[LOG]` delimiter.  `none` models the panic of the byte-indexed slice. -/
def build_prompt_string (parse : List Char → Option Value)
    (log focus_point system_instruction : List Char) : Option (List Char) :=
  (final_log_of parse log).map (fun final_log =>
    let base_prompt :=
      if rustTrim system_instruction = [] then defaultSystemInstruction
      else system_instruction
    let user_focus :=
      defaultFocus ++
        (if rustTrim focus_point = [] then []
         else "追加指示:「".toList ++ focus_point ++ "」について深く考察すること。".toList)
    base_prompt ++ '\n' :: user_focus ++ '\n' :: "[LOG]".toList ++ '\n' :: final_log)

/-- Rust `Debug` formatting of `Option<i32>`, as produced by the `{:?}`
placeholder applied to `status.code()`. -/
def optionIntDebug : Option Int → List Char
  | some n => "Some(".toList ++ intChars n ++ [')']
  | none => "None".toList

/-- The error string built by `run_optimization` for a failed process:
`format!("Exit Code: {:?}\n{}", status.code(), full_stderr)`. -/
def exitCodeMsg (code : Option Int) (full_stderr : List Char) : List Char :=
  "Exit Code: ".toList ++ optionIntDebug code ++ '\n' :: full_stderr

/-- The result computed by `run_optimization` once the process has been
waited on: on success the sanitized stdout, on failure an error carrying
the Debug-formatted exit code and the full captured stderr. -/
def run_optimization_result (success : Bool) (code : Option Int)
    (full_stdout full_stderr : List Char) : Except (List Char) (List Char) :=
  if success then .ok (clean_gurobi_log full_stdout)
  else .error (exitCodeMsg code full_stderr)

/-- One result yielded by `BufReader::lines` inside a reader thread: a
successfully decoded line, or a read error (skipped by the loop's
`if let Ok(l)`). -/
inductive ReadEvent where
  | ok (line : List Char)
  | err
deriving DecidableEq

/-- Model of one reader thread of `run_optimization`: for every `Ok` line
it emits the line to the live-event sink and appends the line plus `'\n'`
to the accumulator.  Returns (emitted lines, final accumulated text). -/
def readerRun : List ReadEvent → List (List Char) × List Char
  | [] => ([], [])
  | .ok l :: rest =>
    let (emitted, accum) := readerRun rest
    (l :: emitted, l ++ '\n' :: accum)
  | .err :: rest => readerRun rest

/-- The decomposition of an accumulated text into its lines: split at
`'\n'`, dropping the empty piece after a trailing newline. -/
def textLines (l : List Char) : List (List Char) :=
  if (splitOnChar '\n' l).getLast? = some [] then (splitOnChar '\n' l).dropLast
  else splitOnChar '\n' l

/-- The first non-whitespace character of a line, if any. -/
def firstNonWS (l : List Char) : Option Char :=
  (l.dropWhile Char.isWhitespace).head?

/-- Modelled from the spec's wording of the sampling rule (C4's reference):
blank lines are discarded; a line whose first non-whitespace character is a
decimal digit increments a running numeric-line count and is kept iff that
count is below `window` or is an exact multiple of `stride`; any other line
is always kept and does not change the count. -/
def sampleRefStep (window stride : Nat) (count : Nat) (line : List Char) : Nat × Bool :=
  match firstNonWS line with
  | none => (count, false)
  | some c =>
    if c.isDigit then
      (count + 1, decide (count + 1 < window) || decide ((count + 1) % stride = 0))
    else
      (count, true)

/-- The reference sampling filter of C4, threaded over a list of lines. -/
def sampleRefAux (window stride count : Nat) : List (List Char) → List (List Char)
  | [] => []
  | line :: rest =>
    let (n, keep) := sampleRefStep window stride count line
    if keep then line :: sampleRefAux window stride n rest
    else sampleRefAux window stride n rest

/-- The reference sampling filter of C4, starting from count 0. -/
def sampleRef (window stride : Nat) (lines : List (List Char)) : List (List Char) :=
  sampleRefAux window stride 0 lines

theorem isPrefixOfB_append_self (a b : List Char) : isPrefixOfB a (a ++ b) = true := by
  induction a with
  | nil => rfl
  | cons c cs ih => simp [isPrefixOfB, ih]

theorem containsB_nil_needle (hay : List Char) : containsB hay [] = true := by
  cases hay <;> simp [containsB, isPrefixOfB]

theorem containsB_of_parts (a n b : List Char) : containsB (a ++ n ++ b) n = true := by
  induction a with
  | nil =>
    cases n with
    | nil => simpa using containsB_nil_needle b
    | cons x xs =>
      have hshape : ([] : List Char) ++ (x :: xs) ++ b = x :: (xs ++ b) := by simp
      rw [hshape, containsB]
      have : isPrefixOfB (x :: xs) (x :: (xs ++ b)) = true := isPrefixOfB_append_self (x :: xs) b
      rw [this, Bool.true_or]
  | cons c cs ih =>
    have hshape : (c :: cs) ++ n ++ b = c :: (cs ++ n ++ b) := by simp
    rw [hshape, containsB, ih, Bool.or_true]

theorem containsB_eq_false_of_head (l : List Char) (s₀ : Char) (st : List Char)
    (h : ∀ c ∈ l, c ≠ s₀) : containsB l (s₀ :: st) = false := by
  induction l with
  | nil => rfl
  | cons c cs ih =>
    have hc : (s₀ == c) = false := by
      have hne : c ≠ s₀ := h c (by simp)
      simp only [beq_eq_false_iff_ne, ne_eq]
      exact fun e => hne e.symm
    rw [containsB]
    simp only [isPrefixOfB, hc, Bool.false_and, Bool.false_or]
    exact ih (fun x hx => h x (by simp [hx]))

theorem splitOnSub_eq_single (sep l : List Char) (h : containsB l sep = false) :
    splitOnSub sep l = [l] := by
  induction l with
  | nil => simp [splitOnSub]
  | cons c cs ih =>
    rw [containsB] at h
    simp only [Bool.or_eq_false_iff] at h
    rw [splitOnSub, h.1]
    simp only [Bool.false_eq_true, if_false]
    rw [ih h.2]

theorem splitOnSub_cons_sep (s₀ : Char) (st b : List Char) :
    splitOnSub (s₀ :: st) ((s₀ :: st) ++ b) = [] :: splitOnSub (s₀ :: st) b := by
  have hpre : isPrefixOfB (s₀ :: st) ((s₀ :: st) ++ b) = true := isPrefixOfB_append_self _ _
  rw [show (s₀ :: st) ++ b = s₀ :: (st ++ b) by rfl]
  rw [splitOnSub]
  rw [show s₀ :: (st ++ b) = (s₀ :: st) ++ b by rfl, hpre]
  simp only [if_true, List.length_cons]
  congr 1
  congr 1
  rw [Nat.add_sub_cancel]
  exact List.drop_left st b

theorem splitOnChar_ne_nil (sep : Char) (l : List Char) : splitOnChar sep l ≠ [] := by
  cases l with
  | nil => simp [splitOnChar]
  | cons c cs =>
    rw [splitOnChar]
    by_cases h : c = sep
    · simp [h]
    · simp only [h, if_false]
      cases splitOnChar sep cs <;> simp

theorem splitOnChar_no_sep (sep : Char) (l : List Char) (h : ∀ c ∈ l, c ≠ sep) :
    splitOnChar sep l = [l] := by
  induction l with
  | nil => rfl
  | cons c cs ih =>
    rw [splitOnChar]
    have hc : ¬ c = sep := h c (by simp)
    simp only [hc, if_false]
    rw [ih (fun x hx => h x (by simp [hx]))]

theorem splitOnChar_append (sep : Char) (l t : List Char) (h : ∀ c ∈ l, c ≠ sep) :
    splitOnChar sep (l ++ sep :: t) = l :: splitOnChar sep t := by
  induction l with
  | nil => simp [splitOnChar]
  | cons c cs ih =>
    have hc : ¬ c = sep := h c (by simp)
    rw [List.cons_append, splitOnChar]
    simp only [hc, if_false]
    rw [ih (fun x hx => h x (by simp [hx]))]

theorem collapseSpaces_id (l : List Char) (h : ∀ c ∈ l, c ≠ ' ') :
    collapseSpaces l = l := by
  induction l with
  | nil => rfl
  | cons c cs ih =>
    cases cs with
    | nil => rfl
    | cons c₂ rest =>
      rw [collapseSpaces]
      have hc : ¬ (c = ' ' ∧ c₂ = ' ') := fun e => h c (by simp) e.1
      simp only [hc, if_false]
      rw [ih (fun x hx => h x (by simp [hx]))]

theorem dropWhile_id_of_not (p : Char → Bool) (l : List Char)
    (h : ∀ c ∈ l, ¬ p c) : l.dropWhile p = l := by
  cases l with
  | nil => rfl
  | cons c cs =>
    rw [List.dropWhile_cons]
    simp [h c (by simp)]

theorem rustTrim_id (l : List Char) (h : ∀ c ∈ l, ¬ c.isWhitespace) :
    rustTrim l = l := by
  unfold rustTrim
  rw [dropWhile_id_of_not _ _ h]
  rw [dropWhile_id_of_not _ _ (fun c hc => h c (List.mem_reverse.mp hc))]
  exact List.reverse_reverse l

theorem stripTrailingCR_id (l : List Char) (h : ∀ c ∈ l, ¬ c.isWhitespace) :
    stripTrailingCR l = l := by
  unfold stripTrailingCR
  cases hg : l.getLast? with
  | none => simp
  | some c =>
    have hc : c ∈ l := by
      obtain ⟨hne, he⟩ := List.mem_getLast?_eq_getLast (l := l) (x := c) (by rw [hg]; rfl)
      rw [he]
      exact List.getLast_mem hne
    have : ¬ c = '\r' := by
      intro e
      exact h c hc (by rw [e]; decide)
    simp [hg, this]

theorem rustLines_single (l : List Char) (hne : l ≠ [])
    (h : ∀ c ∈ l, ¬ c.isWhitespace) : rustLines l = [l] := by
  unfold rustLines
  have hsplit : splitOnChar '\n' l = [l] := by
    refine splitOnChar_no_sep _ _ (fun c hc e => ?_)
    exact h c hc (by rw [e]; decide)
  rw [hsplit]
  simp only [List.getLast?_singleton, Option.some.injEq]
  rw [if_neg hne]
  simp [stripTrailingCR_id l h]

theorem sampleLines_single_other (l : List Char) (c : Char) (cs : List Char)
    (htrim : rustTrim l = c :: cs) (hd : ¬ c.isDigit) : sampleLines [l] = [l] := by
  unfold sampleLines sampleLinesAux
  rw [sampleStep, htrim]
  simp [hd, sampleLinesAux]

/-- `compress_log_for_ai` leaves a non-empty single-line text untouched when
it has no whitespace, no `'-'` (so no JSON delimiter), and does not start
with a digit. -/
theorem compress_plain (parse : List Char → Option Value) (c : Char) (cs : List Char)
    (h : ∀ x ∈ c :: cs, ¬ x.isWhitespace ∧ x ≠ '-') (hd : ¬ c.isDigit) :
    compress_log_for_ai parse (c :: cs) = c :: cs := by
  have hsplit : splitOnSub jsonStartMarker (c :: cs) = [c :: cs] := by
    refine splitOnSub_eq_single _ _ ?_
    exact containsB_eq_false_of_head _ '-' _ (fun x hx => (h x hx).2)
  have hws : ∀ x ∈ c :: cs, ¬ x.isWhitespace := fun x hx => (h x hx).1
  have hcollapse : collapseSpaces (c :: cs) = c :: cs := by
    refine collapseSpaces_id _ (fun x hx e => ?_)
    exact (h x hx).1 (by rw [e]; decide)
  have hlines : rustLines (c :: cs) = [c :: cs] := rustLines_single _ (by simp) hws
  have htrim : rustTrim (c :: cs) = c :: cs := rustTrim_id _ hws
  have hsample : sampleLines [c :: cs] = [c :: cs] :=
    sampleLines_single_other _ c cs htrim hd
  unfold compress_log_for_ai
  rw [hsplit]
  simp only
  rw [hcollapse, hlines, hsample]
  simp [joinNL]

theorem charBytes_pos (c : Char) : 1 ≤ charBytes c := by
  unfold charBytes
  split <;> try omega
  split <;> try omega
  split <;> omega

theorem utf8Len_nil : utf8Len [] = 0 := rfl

theorem utf8Len_cons (c : Char) (l : List Char) :
    utf8Len (c :: l) = charBytes c + utf8Len l := by
  simp [utf8Len]

theorem utf8Len_append (a b : List Char) :
    utf8Len (a ++ b) = utf8Len a + utf8Len b := by
  simp [utf8Len]

theorem utf8Len_replicate (n : Nat) (c : Char) :
    utf8Len (List.replicate n c) = n * charBytes c := by
  induction n with
  | zero => simp [utf8Len]
  | succ k ih =>
    rw [List.replicate_succ, utf8Len_cons, ih]
    ring

theorem length_le_utf8Len (l : List Char) : l.length ≤ utf8Len l := by
  induction l with
  | nil => simp [utf8Len]
  | cons c cs ih =>
    rw [utf8Len_cons, List.length_cons]
    have := charBytes_pos c
    omega

theorem byteDropFront_utf8Len (i : Nat) (l t : List Char)
    (h : byteDropFront i l = some t) : utf8Len t + i = utf8Len l := by
  induction l generalizing i t with
  | nil =>
    cases i with
    | zero => simp [byteDropFront] at h; simp [h]
    | succ j => simp [byteDropFront] at h
  | cons c cs ih =>
    cases i with
    | zero =>
      simp [byteDropFront] at h
      simp [h]
    | succ j =>
      rw [byteDropFront] at h
      by_cases hb : charBytes c ≤ j + 1
      · rw [if_pos hb] at h
        have := ih _ _ h
        rw [utf8Len_cons]
        omega
      · rw [if_neg hb] at h
        exact absurd h (by simp)

/-- C6, counterexample: for a process that exits with code 2 after writing
`boom` to stderr, the error string is
`"Exit Code: Some(2)\nboom"` — Rust's `{:?}` Debug formatting of
`status.code() : Option<i32>` — so it does NOT contain the substring
`"Exit Code: 2"` claimed by the spec (it does contain `boom`). -/
theorem C6_counterexample :
    run_optimization_result false (some 2) [] "boom".toList =
      .error (exitCodeMsg (some 2) "boom".toList) ∧
    containsB (exitCodeMsg (some 2) "boom".toList) "Exit Code: 2".toList = false ∧
    containsB (exitCodeMsg (some 2) "boom".toList) "boom".toList = true :=
  ⟨rfl, by decide, by decide⟩

/-- C6, amended: when the spawned process terminates with a non-zero exit
status, the run returns an error value that contains the Debug-formatted
exit code (for exit code 2: the substring `"Exit Code: Some(2)"`) and the
full captured standard-error text; in particular the code-2/`boom` case
yields an error containing `"Exit Code: Some(2)"` and `"boom"`. -/
theorem C6_theorem :
    (∀ (code : Option Int) (full_stdout full_stderr : List Char),
      ∃ e, run_optimization_result false code full_stdout full_stderr = .error e ∧
        containsB e ("Exit Code: ".toList ++ optionIntDebug code) = true ∧
        containsB e full_stderr = true) ∧
    containsB (exitCodeMsg (some 2) "boom".toList) "Exit Code: Some(2)".toList = true ∧
    containsB (exitCodeMsg (some 2) "boom".toList) "boom".toList = true := by
  refine ⟨fun code full_stdout full_stderr => ⟨exitCodeMsg code full_stderr, rfl, ?_, ?_⟩,
    by decide, by decide⟩
  · have hshape : exitCodeMsg code full_stderr =
        [] ++ ("Exit Code: ".toList ++ optionIntDebug code) ++ ('\n' :: full_stderr) := by
      simp [exitCodeMsg]
    rw [hshape]
    exact containsB_of_parts _ _ _
  · have hshape : exitCodeMsg code full_stderr =
        ("Exit Code: ".toList ++ optionIntDebug code ++ ['\n']) ++ full_stderr ++ [] := by
      simp [exitCodeMsg]
    rw [hshape]
    exact containsB_of_parts _ _ _

/-- C5, counterexample: the display sanitizer also removes lines containing
the other vendor banner substrings — a line containing `"Set parameter"`
but not `"Academic license"` is dropped, so not every line lacking
`"Academic license"` is preserved. -/
theorem C5_counterexample :
    containsB "Set parameter TimeLimit".toList "Academic license".toList = false ∧
    clean_gurobi_log "Set parameter TimeLimit".toList = [] ∧
    "Set parameter TimeLimit".toList ≠ [] :=
  ⟨by decide, by decide, by decide⟩

/-- C5, amended: the display sanitizer removes every line containing any of
the six vendor banner substrings (`Set parameter`, `Academic license`,
`Gurobi Optimizer version`, `CPU model`, `Thread count`,
`Model fingerprint`) — in particular every line containing
`"Academic license"` — and preserves all other lines verbatim and in their
original order (the kept lines form a sublist of the input lines). -/
theorem C5_theorem (raw_log : List Char) :
    clean_gurobi_log raw_log = joinNL (displayLines raw_log) ∧
    (displayLines raw_log).Sublist (rustLines raw_log) ∧
    ∀ l ∈ rustLines raw_log,
      (containsB l "Academic license".toList = true → l ∉ displayLines raw_log) ∧
      (keepDisplayLine l = true → l ∈ displayLines raw_log) := by
  refine ⟨rfl, List.filter_sublist _, fun l hl => ⟨?_, ?_⟩⟩
  · intro hc hmem
    have hkeep := (List.mem_filter.mp hmem).2
    rw [keepDisplayLine, hc] at hkeep
    simp at hkeep
  · intro hk
    exact List.mem_filter.mpr ⟨hl, hk⟩

/-- C5, witness: a concrete log whose second line contains
`"Academic license"`; that line is indeed not among the displayed lines. -/
theorem C5_witness :
    "Academic license x".toList ∉ displayLines "keep\nAcademic license x".toList :=
  ( ( ( C5_theorem "keep\nAcademic license x".toList).2.2
    "Academic license x".toList (by decide)).1) (by decide)

/-- C8: the compression pipeline is deterministic — two invocations of
`compress_log_for_ai` on the same raw text (and the same external parser)
yield identical output. -/
theorem C8_theorem (parse : List Char → Option Value) (rawText d₁ d₂ : List Char)
    (h₁ : d₁ = compress_log_for_ai parse rawText)
    (h₂ : d₂ = compress_log_for_ai parse rawText) : d₁ = d₂ :=
  h₁.trans h₂.symm

/-- C8, witness: determinism instantiated at a concrete raw text. -/
theorem C8_witness :
    compress_log_for_ai (fun _ => none) "ab".toList =
      compress_log_for_ai (fun _ => none) "ab".toList :=
  C8_theorem (fun _ => none) "ab".toList _ _ rfl rfl

theorem dropWhile_append_last (p : Char → Bool) (xs : List Char) (c : Char)
    (hc : ¬ p c) : (xs ++ [c]).dropWhile p = xs.dropWhile p ++ [c] := by
  induction xs with
  | nil => simp [List.dropWhile_cons, hc]
  | cons x xt ih =>
    rw [List.cons_append, List.dropWhile_cons, List.dropWhile_cons]
    by_cases hx : p x
    · simp only [hx, if_true, ih]
    · simp only [hx, Bool.false_eq_true, if_false, List.cons_append]

theorem head_dropWhile_not (p : Char → Bool) (l : List Char) (c : Char)
    (rest : List Char) (h : l.dropWhile p = c :: rest) : ¬ p c := by
  induction l with
  | nil => simp [List.dropWhile] at h
  | cons x xt ih =>
    rw [List.dropWhile_cons] at h
    by_cases hx : p x
    · rw [if_pos hx] at h
      exact ih h
    · rw [if_neg hx] at h
      cases h
      exact hx

theorem rustTrim_head_eq (l : List Char) : (rustTrim l).head? = firstNonWS l := by
  unfold rustTrim firstNonWS
  cases hd : l.dropWhile Char.isWhitespace with
  | nil => simp
  | cons c rest =>
    have hc : ¬ Char.isWhitespace c := head_dropWhile_not _ l c rest hd
    have hrev : (c :: rest).reverse = rest.reverse ++ [c] := by simp
    rw [hrev, dropWhile_append_last _ _ _ hc]
    simp

/-- The per-line sampling step of the source agrees with the reference step
of the spec at window = stride = 15. -/
theorem sampleStep_eq_ref (count : Nat) (line : List Char) :
    sampleStep count line = sampleRefStep 15 15 count line := by
  unfold sampleStep sampleRefStep
  have hh := rustTrim_head_eq line
  cases htr : rustTrim line with
  | nil =>
    rw [htr] at hh
    simp only [List.head?_nil] at hh
    rw [← hh]
  | cons c rest =>
    rw [htr] at hh
    simp only [List.head?_cons] at hh
    rw [← hh]

theorem sampleLinesAux_eq_ref (count : Nat) (lines : List (List Char)) :
    sampleLinesAux count lines = sampleRefAux 15 15 count lines := by
  induction lines generalizing count with
  | nil => rfl
  | cons line rest ih =>
    rw [sampleLinesAux, sampleRefAux, ← sampleStep_eq_ref]
    cases sampleStep count line with
    | mk n keep => by_cases hk : keep = true <;> simp [hk, ih]

/-- C4: the source's line sampling equals the reference sampling rule of
the spec (blank lines discarded; a digit-first line increments the running
count and is kept iff the count is below 15 or a multiple of 15; any other
line is kept, uncounted).  In particular, out of 50 consecutive digit-first
lines exactly lines 1–14 and 15, 30, 45 are kept, and a line whose first
non-whitespace character is `H` or `*` is always kept with the counter
unchanged. -/
theorem C4_theorem :
    (∀ lines, sampleLines lines = sampleRef 15 15 lines) ∧
    (sampleLines ((List.range 50).map (fun i => natChars (i + 1))) =
      ((List.range 15).map (fun i => natChars (i + 1))) ++ [natChars 30, natChars 45]) ∧
    (∀ (count : Nat) (line : List Char),
      firstNonWS line = some 'H' ∨ firstNonWS line = some '*' →
      sampleStep count line = (count, true)) := by
  refine ⟨fun lines => sampleLinesAux_eq_ref 0 lines, by decide, ?_⟩
  intro count line h
  rw [sampleStep_eq_ref]
  unfold sampleRefStep
  rcases h with h | h <;> rw [h] <;> simp

/-- C4, witness: a line starting with `H` is kept and leaves the numeric
counter untouched, at a concrete counter value. -/
theorem C4_witness : sampleStep 37 "H 123".toList = (37, true) :=
  C4_theorem.2.2 37 "H 123".toList (Or.inl (by decide))

theorem textLines_nil : textLines [] = [] := by decide

theorem textLines_append_line (l t : List Char) (h : ∀ c ∈ l, c ≠ '\n') :
    textLines (l ++ '\n' :: t) = l :: textLines t := by
  unfold textLines
  rw [splitOnChar_append '\n' l t h]
  cases hps : splitOnChar '\n' t with

  | nil => exact absurd hps (splitOnChar_ne_nil '\n' t)
  | cons p ps =>
    rw [List.getLast?_cons_cons]
    by_cases hlast : (p :: ps).getLast? = some []
    · rw [if_pos hlast, if_pos hlast]
      rw [List.dropLast_cons_of_ne_nil (by simp)]
    · rw [if_neg hlast, if_neg hlast]

/-- C9: for one stream-reader thread, the sequence of lines forwarded to
the live-event sink equals the decomposition into lines of the final
accumulated text, provided the forwarded lines contain no newline
character (which lines produced by `BufReader::lines` never do): no line is
dropped and the order is preserved. -/
theorem C9_theorem (events : List ReadEvent)
    (h : ∀ l, ReadEvent.ok l ∈ events → '\n' ∉ l) :
    textLines (readerRun events).2 = (readerRun events).1 := by
  induction events with
  | nil => exact textLines_nil
  | cons e rest ih =>
    cases e with
    | ok l =>
      have hl : '\n' ∉ l := h l (by simp)
      rw [readerRun]
      cases hrr : readerRun rest with
      | mk emitted accum =>
        simp only
        rw [textLines_append_line l accum (fun c hc e => hl (e ▸ hc))]
        have := ih (fun l' hl' => h l' (by simp [hl']))
        rw [hrr] at this
        simp only at this
        rw [this]
    | err =>
      rw [readerRun]
      exact ih (fun l' hl' => h l' (by simp [hl']))

/-- C9, witness: a concrete event sequence with a read error in the middle;
the emitted lines equal the lines of the accumulated text. -/
theorem C9_witness :
    textLines (readerRun [ReadEvent.ok "a".toList, ReadEvent.err,
        ReadEvent.ok "b".toList]).2 =
      (readerRun [ReadEvent.ok "a".toList, ReadEvent.err,
        ReadEvent.ok "b".toList]).1 := by
  refine C9_theorem _ ?_
  intro l hl
  simp only [List.mem_cons, List.not_mem_nil, or_false] at hl
  rcases hl with hl | hl | hl
  · cases hl; decide
  · cases hl
  · cases hl; decide

/-- C2, counterexample: pruning recurses into the retained elements, so for
a nested long array the first three elements of the result are the *pruned*
first three original elements, not the originals themselves: on
`[[1,1,1,1], null, null, null, null]` the claimed shape (first three
original elements followed by the marker) differs from the actual result. -/
theorem C2_counterexample :
    prune_json_recursively
        (.arr [.arr [.num 1, .num 1, .num 1, .num 1], .null, .null, .null, .null]) ≠
      .arr (([Value.arr [.num 1, .num 1, .num 1, .num 1], .null, .null, .null, .null].take 3)
        ++ [.str (truncMsg ([Value.arr [.num 1, .num 1, .num 1, .num 1], .null, .null,
              .null, .null].length - 3))]) := by
  simp [prune_json_recursively, pruneList]

/-- C2, amended: for every array node with `k > 3` elements, pruning
produces an array with exactly `3 + 1` elements: the recursively pruned
first three original elements in order, followed by one synthetic
truncation-marker string encoding the count `k - 3` of removed elements. -/
theorem C2_theorem (elems : List Value) (h : 3 < elems.length) :
    ∃ pruned, prune_json_recursively (.arr elems) = .arr pruned ∧
      pruned.length = 3 + 1 ∧
      pruned.take 3 = pruneList (elems.take 3) ∧
      pruned.getLast? = some (.str (truncMsg (elems.length - 3))) := by
  match elems, h with
  | a :: b :: c :: d :: rest, _ =>
    refine ⟨[prune_json_recursively a, prune_json_recursively b,
      prune_json_recursively c, .str (truncMsg (rest.length + 1))], ?_, rfl, ?_, ?_⟩
    · rw [prune_json_recursively]
    · simp [pruneList]
    · have harg : rest.length + 1 = (a :: b :: c :: d :: rest).length - 3 := by
        simp
      rw [harg]
      rfl

/-- C2, witness: the amended shape at the concrete array `[1,2,3,4,5]`. -/
theorem C2_witness :
    ∃ pruned, prune_json_recursively
        (.arr [.num 1, .num 2, .num 3, .num 4, .num 5]) = .arr pruned ∧
      pruned.length = 3 + 1 ∧
      pruned.take 3 = pruneList ([Value.num 1, .num 2, .num 3, .num 4, .num 5].take 3) ∧
      pruned.getLast? = some (.str (truncMsg
        ([Value.num 1, .num 2, .num 3, .num 4, .num 5].length - 3))) :=
  C2_theorem [Value.num 1, .num 2, .num 3, .num 4, .num 5] (by simp)

/-- C3, counterexample: the key `"a"` of an object sitting in the fourth
position of a long array is present in the input tree but absent from the
pruned tree — truncation removes whole array elements together with any
object keys inside them. -/
theorem C3_counterexample :
    ("a".toList ∈ collectKeys
      (.arr [.num 1, .num 2, .num 3, .obj [("a".toList, .num 4)]])) ∧
    ("a".toList ∉ collectKeys (prune_json_recursively
      (.arr [.num 1, .num 2, .num 3, .obj [("a".toList, .num 4)]]))) := by
  constructor
  · simp [collectKeys, collectKeysList, collectKeysFields]
  · simp [prune_json_recursively, pruneList, collectKeys, collectKeysList, collectKeysFields]

mutual

theorem prune_id_of_noLong (v : Value) (h : noLongArrays v = true) :
    prune_json_recursively v = v := by
  cases v with
  | null => rfl
  | bool b => rfl
  | num n => rfl
  | str s => rfl
  | obj m =>
    rw [noLongArrays] at h
    rw [prune_json_recursively]
    rw [pruneFields_id_of_noLong m h]
  | arr l =>
    rw [noLongArrays] at h
    simp only [Bool.and_eq_true, Bool.not_eq_true', decide_eq_false_iff_not, not_lt] at h
    obtain ⟨hlen, hrec⟩ := h
    match l, hlen, hrec with
    | [], _, _ => rfl
    | [a], _, hrec =>
      rw [prune_json_recursively, pruneList_id_of_noLong [a] hrec]
      intro a₁ b₁ c₁ d₁ rest he
      simp at he
    | [a, b], _, hrec =>
      rw [prune_json_recursively, pruneList_id_of_noLong [a, b] hrec]
      intro a₁ b₁ c₁ d₁ rest he
      simp at he
    | [a, b, c], _, hrec =>
      rw [prune_json_recursively, pruneList_id_of_noLong [a, b, c] hrec]
      intro a₁ b₁ c₁ d₁ rest he
      simp at he

theorem pruneList_id_of_noLong (l : List Value) (h : noLongList l = true) :
    pruneList l = l := by
  cases l with
  | nil => rfl
  | cons v vs =>
    rw [noLongList] at h
    simp only [Bool.and_eq_true] at h
    rw [pruneList, prune_id_of_noLong v h.1, pruneList_id_of_noLong vs h.2]

theorem pruneFields_id_of_noLong (m : List (List Char × Value)) (h : noLongFields m = true) :
    pruneFields m = m := by
  cases m with
  | nil => rfl
  | cons kv r =>
    cases kv with
    | mk k v =>
      rw [noLongFields] at h
      simp only [Bool.and_eq_true] at h
      rw [pruneFields, prune_id_of_noLong v h.1, pruneFields_id_of_noLong r h.2]

end

/-- C3, amended: pruning never drops a key of any object node it retains —
every object node keeps exactly its original key sequence (the values being
pruned in place) — and when no array in the tree has more than 3 elements
(so that truncation never fires) the pruned tree is identical to the input,
all keys included.  Keys can disappear only inside array elements removed
by truncation. -/
theorem C3_theorem :
    (∀ v, noLongArrays v = true → prune_json_recursively v = v) ∧
    (∀ fields : List (List Char × Value),
      (pruneFields fields).map Prod.fst = fields.map Prod.fst) := by
  refine ⟨prune_id_of_noLong, ?_⟩
  intro fields
  induction fields with
  | nil => rfl
  | cons kv r ih =>
    cases kv with
    | mk k v => rw [pruneFields]; simp [ih]

/-- C3, witness: a tree whose arrays are all short is returned unchanged. -/
theorem C3_witness :
    prune_json_recursively (.obj [("a".toList, .arr [.num 1, .num 2])]) =
      .obj [("a".toList, .arr [.num 1, .num 2])] :=
  C3_theorem.1 _ (by simp [noLongArrays, noLongList, noLongFields])

/-- C7: when the delimited fragment fails to parse as JSON, compression
still succeeds (the model is a total function mirroring the code's
panic-free fallback branch) and the fragment text is carried into the
output verbatim as its trailing section, with no pruning applied.  The
hypotheses name the fragment exactly as the code extracts it: the text
between the first start marker and the first end marker after it. -/
theorem C7_theorem (parse : List Char → Option Value) (rawText p₀ p₁ : List Char)
    (ps : List (List Char)) (frag : List Char) (fs : List (List Char))
    (hsplit : splitOnSub jsonStartMarker rawText = p₀ :: p₁ :: ps)
    (hfrag : splitOnSub jsonEndMarker p₁ = frag :: fs)
    (hparse : parse frag = none) (hne : frag ≠ []) :
    ∃ pre, compress_log_for_ai parse rawText = pre ++ frag := by
  refine ⟨joinNL (sampleLines (rustLines (collapseSpaces p₀)))
    ++ '\n' :: "[JSON_DATA]:".toList, ?_⟩
  unfold compress_log_for_ai
  rw [hsplit]
  simp only
  rw [hfrag]
  simp only
  rw [hparse]
  simp only
  rw [if_neg hne]

/-- C7, witness: a raw text with markers around the non-JSON fragment `x`;
the compressed output ends with `x` verbatim. -/
theorem C7_witness :
    ∃ pre, compress_log_for_ai (fun _ => none)
        "---JSON_START---x---JSON_END---".toList = pre ++ "x".toList := by
  refine C7_theorem (fun _ => none) _ [] "x---JSON_END---".toList []
    "x".toList [[]] ?_ ?_ rfl (by decide)
  · simp [splitOnSub, isPrefixOfB, jsonStartMarker]
  · simp [splitOnSub, isPrefixOfB, jsonEndMarker]

theorem byteDropFront_one_ascii (c : Char) (h : charBytes c = 1) (cs : List Char) :
    byteDropFront 1 (c :: cs) = some cs := by
  rw [show (1 : Nat) = 0 + 1 from rfl, byteDropFront, h]
  simp [byteDropFront]

theorem byteDropFront_one_wide (c : Char) (h : 1 < charBytes c) (cs : List Char) :
    byteDropFront 1 (c :: cs) = none := by
  rw [show (1 : Nat) = 0 + 1 from rfl, byteDropFront]
  rw [if_neg (by omega)]

/-- C1, counterexample: for a raw text of 15001 `'a'`s the compressed log
is itself (one non-blank, non-numeric line), which exceeds the 15000-byte
budget, so the code keeps the last 15000 characters AND prefixes the
15-character elision marker `"... (snip) ...\n"` — the resulting digest has
15015 characters, more than `maxOutputChars = 15000`. -/
theorem C1_counterexample :
    final_log_of (fun _ => none) (List.replicate 15001 'a') =
      some (elisionMarker ++ List.replicate 15000 'a') ∧
    15000 < (elisionMarker ++ List.replicate 15000 'a').length := by
  have hshape : List.replicate 15001 'a' = 'a' :: List.replicate 15000 'a' := by
    rw [show (15001 : Nat) = 15000 + 1 from rfl, List.replicate_succ]
  have hcomp : compress_log_for_ai (fun _ => none) (List.replicate 15001 'a') =
      List.replicate 15001 'a' := by
    rw [hshape]
    refine compress_plain _ 'a' (List.replicate 15000 'a') ?_ (by decide)
    intro x hx
    have hxa : x = 'a' := by
      rcases List.mem_cons.mp hx with he | hm
      · exact he
      · exact List.eq_of_mem_replicate hm
    rw [hxa]
    exact ⟨by decide, by decide⟩
  have hulen : utf8Len (List.replicate 15001 'a') = 15001 := by
    rw [utf8Len_replicate, show charBytes 'a' = 1 from by decide]
  constructor
  · unfold final_log_of
    rw [hcomp, hulen, if_pos (by norm_num), show (15001 : Nat) - 15000 = 1 from rfl,
      hshape, byteDropFront_one_ascii 'a' (by decide) _]
    rfl
  · rw [List.length_append, List.length_replicate,
      show elisionMarker.length = 15 from by decide]
    norm_num

/-- C1, amended: the digest produced by the compression pipeline has length
(in bytes, hence also in characters) at most `maxOutputChars = 15000` plus
the 15-byte elision marker `"... (snip) ...\n"`; whenever the compressed
log exceeds the budget, exactly its last 15000 bytes are kept, prefixed
with the elision marker (when the byte-slice succeeds at all; the slice
panic is modelled by `final_log_of` returning `none`). -/
theorem C1_theorem (parse : List Char → Option Value) (rawText digest : List Char)
    (h : final_log_of parse rawText = some digest) :
    utf8Len digest ≤ 15000 + utf8Len elisionMarker ∧
    digest.length ≤ 15000 + utf8Len elisionMarker ∧
    (15000 < utf8Len (compress_log_for_ai parse rawText) →
      ∃ tail, byteDropFront (utf8Len (compress_log_for_ai parse rawText) - 15000)
          (compress_log_for_ai parse rawText) = some tail ∧
        digest = elisionMarker ++ tail ∧ utf8Len tail = 15000) := by
  unfold final_log_of at h
  by_cases hc : 15000 < utf8Len (compress_log_for_ai parse rawText)
  · rw [if_pos hc] at h
    obtain ⟨tail, hbd, hdig⟩ := Option.map_eq_some'.mp h
    have hlen := byteDropFront_utf8Len _ _ _ hbd
    have htail : utf8Len tail = 15000 := by omega
    subst hdig
    refine ⟨?_, ?_, fun _ => ⟨tail, hbd, rfl, htail⟩⟩
    · rw [utf8Len_append]
      omega
    · have h₁ := length_le_utf8Len (elisionMarker ++ tail)
      rw [utf8Len_append] at h₁
      omega
  · rw [if_neg hc] at h
    simp only [Option.some.injEq] at h
    subst h
    refine ⟨by omega, ?_, fun hlt => absurd hlt hc⟩
    have := length_le_utf8Len (compress_log_for_ai parse rawText)
    omega

/-- C1, witness: the amended bound instantiated at a tiny raw text whose
digest is produced without truncation. -/
theorem C1_witness :
    utf8Len "ab".toList ≤ 15000 + utf8Len elisionMarker ∧
    "ab".toList.length ≤ 15000 + utf8Len elisionMarker ∧
    (15000 < utf8Len (compress_log_for_ai (fun _ => none) "ab".toList) →
      ∃ tail, byteDropFront (utf8Len (compress_log_for_ai (fun _ => none) "ab".toList) - 15000)
          (compress_log_for_ai (fun _ => none) "ab".toList) = some tail ∧
        "ab".toList = elisionMarker ++ tail ∧ utf8Len tail = 15000) := by
  refine C1_theorem (fun _ => none) "ab".toList "ab".toList ?_
  unfold final_log_of
  rw [show compress_log_for_ai (fun _ => none) "ab".toList = "ab".toList from by
    simp [compress_log_for_ai, splitOnSub, isPrefixOfB, jsonStartMarker, collapseSpaces,
      rustLines, splitOnChar, stripTrailingCR, sampleLines, sampleLinesAux, sampleStep,
      rustTrim, joinNL]]
  decide

/-- C10: `build_prompt_string` is NOT total — at the failing input below
(5000 copies of the three-byte character `あ` followed by `a`, 15001 bytes
in all, compressed to itself) the tail-truncation byte index
`compressed_log.len() - 15000 = 1` falls inside the first character's UTF-8
encoding, so the Rust byte slice `&compressed_log[1..]` panics; the model
returns `none` there. -/
theorem C10_failing :
    build_prompt_string (fun _ => none) (List.replicate 5000 'あ' ++ ['a']) [] [] = none := by
  have hshape : List.replicate 5000 'あ' ++ ['a'] =
      'あ' :: (List.replicate 4999 'あ' ++ ['a']) := by
    rw [show (5000 : Nat) = 4999 + 1 from rfl, List.replicate_succ, List.cons_append]
  have hcomp : compress_log_for_ai (fun _ => none) (List.replicate 5000 'あ' ++ ['a']) =
      List.replicate 5000 'あ' ++ ['a'] := by
    rw [hshape]
    refine compress_plain _ 'あ' _ ?_ (by decide)
    intro x hx
    have hxa : x = 'あ' ∨ x = 'a' := by
      rcases List.mem_cons.mp hx with he | hm
      · exact Or.inl he
      · rcases List.mem_append.mp hm with hr | ha
        · exact Or.inl (List.eq_of_mem_replicate hr)
        · exact Or.inr (by simpa using ha)
    rcases hxa with he | he <;> rw [he]
    · exact ⟨by decide, by decide⟩
    · exact ⟨by decide, by decide⟩
  have hulen : utf8Len (List.replicate 5000 'あ' ++ ['a']) = 15001 := by
    rw [utf8Len_append, utf8Len_replicate, show charBytes 'あ' = 3 from by decide,
      show utf8Len ['a'] = 1 from by decide]
  have hfinal : final_log_of (fun _ => none) (List.replicate 5000 'あ' ++ ['a']) = none := by
    unfold final_log_of
    rw [hcomp, hulen, if_pos (by norm_num), show (15001 : Nat) - 15000 = 1 from rfl,
      hshape, byteDropFront_one_wide 'あ' (by decide) _]
    rfl
  unfold build_prompt_string
  rw [hfinal]
  rfl

end GurobiLab
